import Mathlib

/-!
Verification of the magnetron solenoid-current calculator (`src/main.py`).

The Python program is a closed-form physics calculator over IEEE floats
(numpy).  We embed it shallowly over the real numbers: `np.sqrt`, `np.cos`,
`np.sin` become `Real.sqrt`, `Real.cos`, `Real.sin`; `np.linspace` becomes an
explicit list of sample values; the physical constants are the CODATA 2018
values that `scipy.constants` exports.  Division is the real-field total
division (`x / 0 = 0`); where a claim is about a division-by-zero branch we
use an explicitly guarded variant returning `Option`.
-/

namespace Magnetron

/-- `scipy.constants.e`: the elementary charge, in coulombs (exact since the
2019 SI redefinition). -/
noncomputable def e : ℝ := 1.602176634e-19

/-- `scipy.constants.m_e`: the electron mass, in kilograms (CODATA 2018). -/
noncomputable def m_e : ℝ := 9.1093837015e-31

/-- `scipy.constants.mu_0`: the vacuum permeability, in henry per metre
(CODATA 2018 measured value). -/
noncomputable def mu_0 : ℝ := 1.25663706212e-6

theorem e_pos : (0 : ℝ) < e := by norm_num [e]

theorem m_e_pos : (0 : ℝ) < m_e := by norm_num [m_e]

theorem mu_0_pos : (0 : ℝ) < mu_0 := by norm_num [mu_0]

/-- The configuration record held by `MagnetronSolver.__init__`: solenoid
diameter `D` (m), winding density `n` (turns/m), anode radius `Ra` (m),
cathode radius `Rk` (m), and the voltage range `U1`, `U2` (V). -/
structure MagnetronSolver where
  D : ℝ
  n : ℝ
  Ra : ℝ
  Rk : ℝ
  U1 : ℝ
  U2 : ℝ

/-- `MagnetronSolver.calculate_solenoid_current`:
`r = (Ra - Rk) / 2`, `B = sqrt(2 * U * m_e / e) / r`, `Ic = B / (mu_0 * n)`. -/
noncomputable def calculate_solenoid_current (s : MagnetronSolver) (U : ℝ) : ℝ :=
  let r := (s.Ra - s.Rk) / 2
  let B := Real.sqrt (2 * U * m_e / e) / r
  let Ic := B / (mu_0 * s.n)
  Ic

/-- `np.linspace a b num`: `num` evenly spaced samples from `a` to `b`,
endpoints included.  For `num = 1` numpy returns `[a]`, which the formula
also yields here because real division by `0` is `0`; for `num = 0` the
list is empty. -/
noncomputable def linspace (a b : ℝ) (num : ℕ) : List ℝ :=
  (List.range num).map (fun i : ℕ => a + (b - a) * (i : ℝ) / ((num : ℝ) - 1))

/-- `MagnetronSolver.electron_trajectory`: samples `theta` uniformly over
`[0, 2π]` and returns the coordinate lists
`x = (Rk + r) * cos theta`, `y = (Rk + r) * sin theta` with
`r = (Ra - Rk) / 2`.  The local `B = mu_0 * n * Ic` is computed and never
used, exactly as in the source. -/
noncomputable def electron_trajectory (s : MagnetronSolver) (U Ic : ℝ)
    (num_points : ℕ := 1000) : List ℝ × List ℝ :=
  let B := mu_0 * s.n * Ic
  let r := (s.Ra - s.Rk) / 2
  let theta := linspace 0 (2 * Real.pi) num_points
  let x := theta.map (fun t => (s.Rk + r) * Real.cos t)
  let y := theta.map (fun t => (s.Rk + r) * Real.sin t)
  (x, y)

/-- `calculate_solenoid_current` with the division producing `B` guarded:
the source divides `sqrt(2 * U * m_e / e)` by `r = (Ra - Rk) / 2`, and this
variant returns `none` exactly when that divisor is zero. -/
noncomputable def calculate_solenoid_current_checked (s : MagnetronSolver)
    (U : ℝ) : Option ℝ :=
  let r := (s.Ra - s.Rk) / 2
  if r = 0 then none
  else
    let B := Real.sqrt (2 * U * m_e / e) / r
    some (B / (mu_0 * s.n))

/-- The hardcoded parameters of the `__main__` block:
`D = 0.1`, `n = 1000`, `Ra = 0.03`, `Rk = 0.01`, `U1 = 100`, `U2 = 1000`. -/
noncomputable def solver : MagnetronSolver :=
  { D := 0.1, n := 1000, Ra := 0.03, Rk := 0.01, U1 := 100, U2 := 1000 }

/-- One line printed to standard output.  The line
`Ток соленоида для U=<U> В: <Ic:.4f> А` is represented structurally by the
two interpolated numeric values: `U` as printed, and the exact current whose
4-decimal rendering fills the second slot. -/
structure PrintedLine where
  U : ℝ
  Ic : ℝ

/-- The standard-output trace of the `__main__` block: it computes the
midpoint voltage `U = (U1 + U2) / 2`, the current `Ic` at that voltage, and
prints the single line. -/
noncomputable def main_stdout : List PrintedLine :=
  let U := (solver.U1 + solver.U2) / 2
  let Ic := calculate_solenoid_current solver U
  [{ U := U, Ic := Ic }]

/-- C1: for every voltage `U` and configuration, `calculate_solenoid_current`
returns the closed-form reference value
`sqrt(2*U*m_e/e) / ((Ra - Rk)/2) / (mu_0 * n)`. -/
theorem calculate_solenoid_current_closed_form (s : MagnetronSolver) (U : ℝ) :
    calculate_solenoid_current s U =
      Real.sqrt (2 * U * m_e / e) / ((s.Ra - s.Rk) / 2) / (mu_0 * s.n) := rfl

/-- C4: `calculate_solenoid_current` is inversely proportional to the winding
density and to the orbit radius: doubling `n` halves the result, and doubling
the orbit radius (replacing `Ra - Rk` by `2 * (Ra - Rk)`, here by moving the
anode to `Rk + 2 * (Ra - Rk)`) halves the result, for every configuration
and every `U`. -/
theorem calculate_solenoid_current_inv_proportional (s : MagnetronSolver) (U : ℝ) :
    calculate_solenoid_current { s with n := 2 * s.n } U
        = calculate_solenoid_current s U / 2 ∧
      calculate_solenoid_current { s with Ra := s.Rk + 2 * (s.Ra - s.Rk) } U
        = calculate_solenoid_current s U / 2 := by
  constructor
  · show Real.sqrt (2 * U * m_e / e) / _ / _ = _
    rw [calculate_solenoid_current_closed_form]
    ring
  · show Real.sqrt (2 * U * m_e / e) / ((s.Rk + 2 * (s.Ra - s.Rk) - s.Rk) / 2) /
        (mu_0 * s.n) = _
    rw [calculate_solenoid_current_closed_form]
    have h : (s.Rk + 2 * (s.Ra - s.Rk) - s.Rk) / 2 = s.Ra - s.Rk := by ring
    rw [h, div_div_eq_mul_div]
    ring

theorem linspace_length (a b : ℝ) (num : ℕ) : (linspace a b num).length = num := by
  unfold linspace
  rw [List.length_map, List.length_range]

/-- C5: for every configuration, every `U` and `Ic` and every requested point
count, both coordinate lists returned by `electron_trajectory` have exactly
`num_points` entries. -/
theorem electron_trajectory_length (s : MagnetronSolver) (U Ic : ℝ)
    (num_points : ℕ) :
    (electron_trajectory s U Ic num_points).1.length = num_points ∧
      (electron_trajectory s U Ic num_points).2.length = num_points := by
  constructor <;>
    simp [electron_trajectory, List.length_map, linspace_length]

/-- C9: the lists returned by `electron_trajectory` do not depend on the `U`
argument or on the `Ic` argument: the unused local flux density is never
read, so any two argument pairs give identical output. -/
theorem electron_trajectory_independent_of_U_Ic (s : MagnetronSolver)
    (U Ic U' Ic' : ℝ) (num_points : ℕ) :
    electron_trajectory s U Ic num_points
      = electron_trajectory s U' Ic' num_points := rfl

/-- C7: the division producing `B` divides by zero exactly when `Ra = Rk`:
the guarded variant returns `none` iff `Ra = Rk`, and under the precondition
`Ra ≠ Rk` the division-by-zero branch is unreachable and the guarded variant
agrees with `calculate_solenoid_current`. -/
theorem checked_current_none_iff (s : MagnetronSolver) (U : ℝ) :
    (calculate_solenoid_current_checked s U = none ↔ s.Ra = s.Rk) ∧
      (s.Ra ≠ s.Rk →
        calculate_solenoid_current_checked s U
          = some (calculate_solenoid_current s U)) := by
  have hr : ((s.Ra - s.Rk) / 2 = 0) ↔ s.Ra = s.Rk := by
    rw [div_eq_zero_iff]
    constructor
    · rintro (h | h)
      · exact sub_eq_zero.mp h
      · exact absurd h (by norm_num)
    · intro h
      exact Or.inl (sub_eq_zero.mpr h)
  constructor
  · show (if (s.Ra - s.Rk) / 2 = 0 then none
        else some (Real.sqrt (2 * U * m_e / e) / ((s.Ra - s.Rk) / 2)
          / (mu_0 * s.n))) = none ↔ s.Ra = s.Rk
    split_ifs with h
    · simpa using hr.mp h
    · simpa using fun he => h (hr.mpr he)
  · intro hne
    show (if (s.Ra - s.Rk) / 2 = 0 then none
        else some (Real.sqrt (2 * U * m_e / e) / ((s.Ra - s.Rk) / 2)
          / (mu_0 * s.n))) = some (calculate_solenoid_current s U)
    rw [if_neg (fun h => hne (hr.mp h))]
    rfl

/-- Closed witness for C7 at concrete inputs: with `Ra = Rk = 0.02` the
guarded computation hits the division-by-zero branch, and at the `__main__`
parameters (where `Ra ≠ Rk`) it does not. -/
theorem checked_current_none_iff_witness :
    calculate_solenoid_current_checked
        { D := 0.1, n := 1000, Ra := 0.02, Rk := 0.02, U1 := 100, U2 := 1000 } 550
      = none ∧
    calculate_solenoid_current_checked solver 550
      = some (calculate_solenoid_current solver 550) :=
  ⟨(checked_current_none_iff
      { D := 0.1, n := 1000, Ra := 0.02, Rk := 0.02, U1 := 100, U2 := 1000 }
      550).1.mpr (by norm_num),
   (checked_current_none_iff solver 550).2 (by norm_num [solver])⟩

/-- C8: the `__main__` block prints exactly one line, whose interpolated
voltage is the midpoint `(U1 + U2) / 2 = 550` and whose interpolated current
is `calculate_solenoid_current` at that midpoint. -/
theorem main_stdout_single_midpoint_line :
    main_stdout.length = 1 ∧
      main_stdout = [{ U := 550, Ic := calculate_solenoid_current solver 550 }] := by
  refine ⟨rfl, ?_⟩
  have h : (solver.U1 + solver.U2) / 2 = (550 : ℝ) := by norm_num [solver]
  unfold main_stdout
  rw [h]

/-- C3 as stated is false: it quantifies over every configuration, but with
the anode inside the cathode (`Ra = 0.01 < Rk = 0.03`) the orbit radius is
negative and the returned current at `U = 1` is negative, not strictly
positive. -/
theorem current_pos_counterexample :
    ¬ (0 < calculate_solenoid_current
        { D := 0.1, n := 1000, Ra := 0.01, Rk := 0.03, U1 := 100, U2 := 1000 } 1) := by
  rw [calculate_solenoid_current_closed_form]
  have hs : 0 < Real.sqrt (2 * 1 * m_e / e) :=
    Real.sqrt_pos.mpr (by norm_num [m_e, e])
  have hneg :
      Real.sqrt (2 * 1 * m_e / e) / (((0.01 : ℝ) - 0.03) / 2) / (mu_0 * 1000) < 0 := by
    apply div_neg_of_neg_of_pos
    · exact div_neg_of_pos_of_neg hs (by norm_num)
    · norm_num [mu_0]
  exact not_lt.mpr hneg.le

/-- C3 amended: for every configuration with `Rk < Ra` and `0 < n`, and all
voltages `0 < U < U'`, the current is strictly positive and strictly
increasing in `U`. -/
theorem current_pos_strictMono (s : MagnetronSolver) (U U' : ℝ)
    (hra : s.Rk < s.Ra) (hn : 0 < s.n) (hU : 0 < U) (hUU : U < U') :
    0 < calculate_solenoid_current s U ∧
      calculate_solenoid_current s U < calculate_solenoid_current s U' := by
  rw [calculate_solenoid_current_closed_form, calculate_solenoid_current_closed_form]
  have hr : 0 < (s.Ra - s.Rk) / 2 := by linarith
  have hm : 0 < mu_0 * s.n := mul_pos mu_0_pos hn
  have hme := m_e_pos
  have he := e_pos
  have harg : 0 < 2 * U * m_e / e := by
    apply div_pos _ he
    nlinarith
  refine ⟨div_pos (div_pos (Real.sqrt_pos.mpr harg) hr) hm, ?_⟩
  have hlt : Real.sqrt (2 * U * m_e / e) < Real.sqrt (2 * U' * m_e / e) := by
    apply Real.sqrt_lt_sqrt harg.le
    apply (div_lt_div_iff_of_pos_right he).mpr
    nlinarith
  exact (div_lt_div_iff_of_pos_right hm).mpr
    ((div_lt_div_iff_of_pos_right hr).mpr hlt)

/-- Witness for the amended C3 at the `__main__` configuration with
`U = 100 < U' = 400`. -/
theorem current_pos_strictMono_witness :
    0 < calculate_solenoid_current solver 100 ∧
      calculate_solenoid_current solver 100 < calculate_solenoid_current solver 400 :=
  current_pos_strictMono solver 100 400 (by norm_num [solver])
    (by norm_num [solver]) (by norm_num) (by norm_num)

theorem linspace_head (a b : ℝ) (n : ℕ) (hn : 2 ≤ n) :
    (linspace a b n).head? = some a := by
  obtain ⟨m, rfl⟩ : ∃ m, n = m + 2 := ⟨n - 2, by omega⟩
  unfold linspace
  rw [List.range_succ_eq_map, List.map_cons, List.head?_cons]
  norm_num

theorem linspace_getLast (a b : ℝ) (n : ℕ) (hn : 2 ≤ n) :
    (linspace a b n).getLast? = some b := by
  obtain ⟨m, rfl⟩ : ∃ m, n = m + 2 := ⟨n - 2, by omega⟩
  unfold linspace
  rw [List.range_succ, List.map_append, List.map_cons, List.map_nil,
    List.getLast?_concat]
  congr 1
  push_cast
  have h21 : (m : ℝ) + 2 - 1 = (m : ℝ) + 1 := by ring
  have hm1 : (m : ℝ) + 1 ≠ 0 := by positivity
  rw [h21, mul_div_cancel_right₀ _ hm1]
  ring

/-- C6: for every configuration, `U`, `Ic` and `num_points ≥ 2`, the first
and last points returned by `electron_trajectory` coincide: the samples
`theta = 0` and `theta = 2*pi` give the same Cartesian point. -/
theorem electron_trajectory_endpoints (s : MagnetronSolver) (U Ic : ℝ)
    (n : ℕ) (hn : 2 ≤ n) :
    (electron_trajectory s U Ic n).1.head? = (electron_trajectory s U Ic n).1.getLast? ∧
      (electron_trajectory s U Ic n).2.head? = (electron_trajectory s U Ic n).2.getLast? := by
  unfold electron_trajectory
  constructor
  · show ((linspace 0 (2 * Real.pi) n).map
        (fun t => (s.Rk + (s.Ra - s.Rk) / 2) * Real.cos t)).head? = _
    rw [List.head?_map, List.getLast?_map, linspace_head 0 (2 * Real.pi) n hn,
      linspace_getLast 0 (2 * Real.pi) n hn]
    simp [Real.cos_two_pi]
  · show ((linspace 0 (2 * Real.pi) n).map
        (fun t => (s.Rk + (s.Ra - s.Rk) / 2) * Real.sin t)).head? = _
    rw [List.head?_map, List.getLast?_map, linspace_head 0 (2 * Real.pi) n hn,
      linspace_getLast 0 (2 * Real.pi) n hn]
    simp [Real.sin_two_pi]

/-- Witness for C6 at the `__main__` configuration with `num_points = 2`. -/
theorem electron_trajectory_endpoints_witness :
    (electron_trajectory solver 550 1 2).1.head?
        = (electron_trajectory solver 550 1 2).1.getLast? ∧
      (electron_trajectory solver 550 1 2).2.head?
        = (electron_trajectory solver 550 1 2).2.getLast? :=
  electron_trajectory_endpoints solver 550 1 2 (by norm_num)

/-- C10: every point produced by `electron_trajectory` satisfies
`x^2 + y^2 = ((Ra + Rk)/2)^2` — it lies at distance `Rk + (Ra - Rk)/2 =
(Ra + Rk)/2` from the origin — and consequently, whenever `0 < Rk < Ra`,
its squared distance from the origin lies strictly between `Rk^2` and
`Ra^2`, i.e. the trajectory is strictly between the cathode and anode
circles. -/
theorem electron_trajectory_on_median_circle (s : MagnetronSolver) (U Ic : ℝ)
    (n : ℕ) (p : ℝ × ℝ)
    (hp : p ∈ ((electron_trajectory s U Ic n).1).zip ((electron_trajectory s U Ic n).2)) :
    p.1 ^ 2 + p.2 ^ 2 = ((s.Ra + s.Rk) / 2) ^ 2 ∧
      (0 < s.Rk → s.Rk < s.Ra →
        s.Rk ^ 2 < p.1 ^ 2 + p.2 ^ 2 ∧ p.1 ^ 2 + p.2 ^ 2 < s.Ra ^ 2) := by
  have hzip : ((electron_trajectory s U Ic n).1).zip ((electron_trajectory s U Ic n).2)
      = (linspace 0 (2 * Real.pi) n).map
          (fun t => ((s.Rk + (s.Ra - s.Rk) / 2) * Real.cos t,
            (s.Rk + (s.Ra - s.Rk) / 2) * Real.sin t)) := by
    unfold electron_trajectory
    exact List.zip_map' _ _ _
  rw [hzip] at hp
  obtain ⟨t, -, rfl⟩ := List.mem_map.mp hp
  have htrig := Real.sin_sq_add_cos_sq t
  have hcirc : ((s.Rk + (s.Ra - s.Rk) / 2) * Real.cos t) ^ 2 +
      ((s.Rk + (s.Ra - s.Rk) / 2) * Real.sin t) ^ 2 = ((s.Ra + s.Rk) / 2) ^ 2 := by
    linear_combination ((s.Rk + (s.Ra - s.Rk) / 2) ^ 2) * htrig
  refine ⟨hcirc, fun hk hka => ⟨?_, ?_⟩⟩
  · rw [hcirc]; nlinarith
  · rw [hcirc]; nlinarith

/-- Witness for C10: at the `__main__` configuration with a single sample
point, the generated point is `(0.02, 0)`, whose squared distance from the
origin is `((Ra + Rk)/2)^2` and lies strictly between `Rk^2` and `Ra^2`. -/
theorem electron_trajectory_on_median_circle_witness :
    ((0.02 : ℝ)) ^ 2 + ((0 : ℝ)) ^ 2 = ((solver.Ra + solver.Rk) / 2) ^ 2 ∧
      solver.Rk ^ 2 < ((0.02 : ℝ)) ^ 2 + ((0 : ℝ)) ^ 2 ∧
        ((0.02 : ℝ)) ^ 2 + ((0 : ℝ)) ^ 2 < solver.Ra ^ 2 := by
  have h := electron_trajectory_on_median_circle solver 550 1 1 ((0.02 : ℝ), (0 : ℝ))
    (by norm_num [electron_trajectory, linspace, solver, List.range_succ])
  exact ⟨h.1, h.2 (by norm_num [solver]) (by norm_num [solver])⟩

/-- The angle samples at `num_points = 3` are exactly `0`, `π`, `2π`. -/
theorem linspace_three : linspace 0 (2 * Real.pi) 3 = [0, Real.pi, 2 * Real.pi] := by
  unfold linspace
  have h3 : List.range 3 = [0, 1, 2] := rfl
  rw [h3, List.map_cons, List.map_cons, List.map_cons, List.map_nil]
  simp only [List.cons.injEq, and_true]
  push_cast
  norm_num

/-- C2 fails on the code: at the `__main__` parameters with 3 sample points
the generated points are `(0.02, 0)`, `(-0.02, 0)`, `(0.02, 0)`; no centre
`(cx, cy)` at distance `Rk + r` from the origin (indeed, no centre at all)
puts all of them at distance `r = (Ra - Rk)/2`, so the points do not lie on
a circle of radius `r` centred at distance `Rk + r` from the origin.  The
code instead generates the circle of radius `Rk + r` centred at the
origin. -/
theorem electron_trajectory_not_on_offset_circle :
    ¬ ∃ cx cy : ℝ,
        cx ^ 2 + cy ^ 2 = (solver.Rk + (solver.Ra - solver.Rk) / 2) ^ 2 ∧
          ∀ p ∈ ((electron_trajectory solver 550 1 3).1).zip
              ((electron_trajectory solver 550 1 3).2),
            (p.1 - cx) ^ 2 + (p.2 - cy) ^ 2 = ((solver.Ra - solver.Rk) / 2) ^ 2 := by
  have htraj : electron_trajectory solver 550 1 3
      = ([0.02, -0.02, 0.02], [0, 0, 0]) := by
    unfold electron_trajectory
    rw [linspace_three]
    norm_num [solver, Real.cos_pi, Real.sin_pi, Real.cos_two_pi, Real.sin_two_pi]
  rintro ⟨cx, cy, -, hall⟩
  rw [htraj] at hall
  have h1 := hall ((0.02 : ℝ), (0 : ℝ)) (by norm_num [List.zip])
  have h2 := hall ((-0.02 : ℝ), (0 : ℝ)) (by norm_num [List.zip])
  norm_num [solver] at h1 h2
  nlinarith [h1, h2, sq_nonneg cx, sq_nonneg cy]

end Magnetron
